import Mathlib

/-!
Verification of the ordered-property container of `properties.go`
(`OrderSchemaItem(s)`, `SchemaProperties`): insertion-order preservation,
the x-order fallback comparison, and JSON rendering.
-/

set_option maxHeartbeats 1000000

namespace SpecProps

/-- Modelled from the spec: the value of a vendor extension such as x-order is
dynamically typed; the spec's tie-break policy distinguishes integer values,
string values, and other values (e.g. a boolean). -/
inductive ExtValue where
  | int (n : Int)
  | str (s : String)
  | boolean (b : Bool)
deriving DecidableEq

/-- Modelled from the spec: the Ordering Extension Lookup collaborator (the
enclosing schema's extension-map type, not part of src/): given the extension
map and a key, it returns an optional ordering key value and whether it was
present. Presence is the presence of the key in the map. -/
def getExt (e : List (String × ExtValue)) (k : String) : Option ExtValue :=
  e.lookup k

/-- Go semantics of reflect.Value.Int on the dynamic value: succeeds exactly
on integer-kinded values, otherwise the call panics. -/
def ExtValue.reflectInt : ExtValue → Option Int
  | .int n => some n
  | _ => none

/-- Go semantics of reflect.Value.String on the dynamic value: by the
documented special case it never panics; a non-string value yields the
placeholder text "<T Value>" for its type T. -/
def ExtValue.reflectStr : ExtValue → String
  | .int _ => "<int Value>"
  | .str s => s
  | .boolean _ => "<bool Value>"

/-- Go byte-wise lexicographic comparison of strings, on the character lists
(UTF-8 byte order coincides with code-point order). -/
def goStrLtL : List Char → List Char → Bool
  | [], [] => false
  | [], _ :: _ => true
  | _ :: _, [] => false
  | a :: as, b :: bs =>
    if a.toNat < b.toNat then true
    else if b.toNat < a.toNat then false
    else goStrLtL as bs

/-- Go string comparison a < b. -/
def goStrLt (a b : String) : Bool := goStrLtL a.data b.data

instance decEqExcept : DecidableEq (Except String String)
  | .error a, .error b =>
    if h : a = b then isTrue (by rw [h])
    else isFalse (fun he => h (by cases he; rfl))
  | .error _, .ok _ => isFalse (fun he => by cases he)
  | .ok _, .error _ => isFalse (fun he => by cases he)
  | .ok a, .ok b =>
    if h : a = b then isTrue (by rw [h])
    else isFalse (fun he => h (by cases he; rfl))

/-- Modelled from the spec: a sub-schema is an opaque external value exposing
an extension map; its standard JSON encoding (json.Marshal, outside src/) is a
deterministic function of the value that either yields the encoded text or
fails with an error message. -/
structure Schema where
  Extensions : List (String × ExtValue)
  encoded : Except String String
deriving DecidableEq

instance : Inhabited Schema := ⟨⟨[], Except.ok "\x7b\x7d"⟩⟩

/-- OrderSchemaItem holds a named schema (properties.go lines 13-16). -/
structure OrderSchemaItem where
  Name : String
  Schema : Schema
deriving DecidableEq

/-- The content of OrderSchemaItems.Less (properties.go lines 46-68) on two
elements.  Both x-order values present: the reflect Int comparison is
attempted first and panics unless both values are integer-kinded; the
recover handler then compares the reflect String forms, which never panics,
so the innermost recover (name comparison) is unreachable.  Only the first
present: true.  Only the second present: false.  Neither: name comparison. -/
def lessItem (a b : OrderSchemaItem) : Bool :=
  match getExt a.Schema.Extensions "x-order", getExt b.Schema.Extensions "x-order" with
  | some va, some vb =>
    match va.reflectInt, vb.reflectInt with
    | some na, some nb => decide (na < nb)
    | _, _ => goStrLt va.reflectStr vb.reflectStr
  | some _, none => true
  | none, some _ => false
  | none, none => goStrLt a.Name b.Name

/-- One step of stable insertion sort with respect to lessItem. -/
def insertItem (x : OrderSchemaItem) : List OrderSchemaItem → List OrderSchemaItem
  | [] => [x]
  | y :: ys => if lessItem y x then y :: insertItem x ys else x :: y :: ys

/-- Modelled from the spec: the sort applied on the fallback path.  sort.Sort
is standard-library code outside src/; the spec prescribes a stable
comparison sort over the Less policy ("implementers should use a stable
sort"), modelled here as stable insertion sort. -/
def sortItems (l : List OrderSchemaItem) : List OrderSchemaItem :=
  l.foldr insertItem []

/-- SchemaProperties (properties.go lines 72-75).  Origin is a Go map that
may be nil (none); the association list order stands for the map's
(unspecified) iteration order.  omap is a pointer to an ordered map that may
be nil (none); only its key sequence is consumed by the code, so it is
modelled as the list of keys in insertion order. -/
structure SchemaProperties where
  Origin : Option (List (String × Schema))
  omap : Option (List String)
deriving DecidableEq

/-- Go map read origin[k]: yields the zero Schema when the map is nil or the
key is absent. -/
def mapGet (m : Option (List (String × Schema))) (k : String) : Schema :=
  match m with
  | none => default
  | some l =>
    match l.lookup k with
    | some v => v
    | none => default

/-- The key list of an association list. -/
def mapKeys {α : Type} (m : List (String × α)) : List String := m.map Prod.fst

/-- NewSchemaProperties (properties.go lines 77-82): both structures
initialized empty. -/
def NewSchemaProperties : SchemaProperties := ⟨some [], some []⟩

/-- Go map update m[k] = v: replaces the value at an existing key in place,
otherwise adds the key (appended here; list position models iteration order,
which Go leaves unspecified). -/
def upsert : List (String × Schema) → String → Schema → List (String × Schema)
  | [], k, v => [(k, v)]
  | (k0, v0) :: rest, k, v =>
    if k0 = k then (k, v) :: rest else (k0, v0) :: upsert rest k v

/-- Modelled from the spec: the insertion-order structure records a name on
insertion, "appending if new, leaving position unchanged if the name already
existed" (orderedmap.Set is outside src/). -/
def omapSet (ks : List String) (k : String) : List String :=
  if k ∈ ks then ks else ks ++ [k]

/-- SchemaProperties.Set (properties.go lines 84-87).  The result is none
when the operation panics at runtime: assignment to a nil Origin map
(s.Origin[k] = v, Go runtime panic), or the nil omap pointer being
dereferenced by its Set method. -/
def SchemaProperties.Set (s : SchemaProperties) (k : String) (v : Schema) :
    Option SchemaProperties :=
  match s.Origin, s.omap with
  | some m, some ks => some ⟨some (upsert m k v), some (omapSet ks k)⟩
  | _, _ => none

/-- SchemaProperties.Len (properties.go lines 89-94). -/
def SchemaProperties.Len (s : SchemaProperties) : Nat :=
  match s.Origin with
  | none => 0
  | some m => m.length

/-- SchemaProperties.ToOrderedSchemaItems (properties.go lines 97-118): with
omap present its key order is used verbatim; otherwise the Origin entries are
collected (in iteration order) and sorted. -/
def SchemaProperties.ToOrderedSchemaItems (p : SchemaProperties) :
    List OrderSchemaItem :=
  match p.omap with
  | some keys => keys.map (fun k => ⟨k, mapGet p.Origin k⟩)
  | none => sortItems ((p.Origin.getD []).map (fun kv => ⟨kv.1, kv.2⟩))

/-- One member of the rendered object (properties.go lines 31-38): the name
is written raw between quotes, then a colon, then the sub-schema's standard
JSON encoding; an encoding error aborts with that error. -/
def renderItem (it : OrderSchemaItem) : Except String String :=
  match it.Schema.encoded with
  | .error e => .error e
  | .ok t => .ok ("\"" ++ it.Name ++ "\":" ++ t)

/-- The loop body of OrderSchemaItems.MarshalJSON (properties.go lines
27-39): members in slice order, comma-separated, aborting at the first
sub-schema whose encoding fails. -/
def renderMembers : List OrderSchemaItem → Except String String
  | [] => .ok ""
  | it :: rest =>
    match renderItem it with
    | .error e => .error e
    | .ok s =>
      match renderMembers rest with
      | .error e => .error e
      | .ok s2 => .ok (s ++ (if rest.isEmpty then "" else ",") ++ s2)

/-- OrderSchemaItems.MarshalJSON (properties.go lines 24-42). -/
def OrderSchemaItems.MarshalJSON (items : List OrderSchemaItem) :
    Except String String :=
  match renderMembers items with
  | .error e => .error e
  | .ok body => .ok ("\x7b" ++ body ++ "\x7d")

/-- SchemaProperties.MarshalJSON (properties.go lines 121-126).  A nil Origin
yields the literal null.  Modelled from the spec on one point: the outer
standard-library encoder (json.Marshal, outside src/) invokes the sequence's
own MarshalJSON and its bytes are the produced rendering (spec section 4.2:
the object text is exactly the sequence rendering). -/
def SchemaProperties.MarshalJSON (p : SchemaProperties) : Except String String :=
  match p.Origin with
  | none => .ok "null"
  | some _ => OrderSchemaItems.MarshalJSON p.ToOrderedSchemaItems

/-- Repeated insertion through Set starting from the constructor; a (k, v)
pair whose insertion would panic is skipped (never happens from the
constructor, whose shape Set preserves). -/
def build (l : List (String × Schema)) : SchemaProperties :=
  l.foldl (fun p kv => (p.Set kv.1 kv.2).getD p) NewSchemaProperties

/-- First-occurrence order of the keys of an insertion list. -/
def insOrder (l : List (String × Schema)) : List String :=
  l.foldl (fun ks kv => omapSet ks kv.1) []

/-- Iterated Go map update over an insertion list. -/
def upserts (l : List (String × Schema)) : List (String × Schema) :=
  l.foldl (fun m kv => upsert m kv.1 kv.2) []

/-- The container invariant of the data model: the keys of the origin map are
distinct, and when both structures are populated the insertion-order
structure holds exactly the origin map's keys. -/
def Inv (p : SchemaProperties) : Prop :=
  match p.omap, p.Origin with
  | some ks, some m => ks.Perm (mapKeys m) ∧ (mapKeys m).Nodup
  | some _, none => True
  | none, some m => (mapKeys m).Nodup
  | none, none => True

/-- Two model states denote the same Go container state: the same ordered-map
key sequence, and origin maps that are nil together or hold the same
key-value set (association lists that are permutations of one another, keys
distinct); the list order is only the iteration-order artifact. -/
def stateEquiv (p q : SchemaProperties) : Prop :=
  p.omap = q.omap ∧
  match p.Origin, q.Origin with
  | none, none => True
  | some m1, some m2 => m1.Perm m2 ∧ (mapKeys m1).Nodup
  | _, _ => False

/-- State-threading form of Len: the Go body (properties.go lines 89-94)
only reads s.Origin and writes no field of the receiver, so the threaded
receiver is returned as it was. -/
def SchemaProperties.LenSt (p : SchemaProperties) : Nat × SchemaProperties :=
  (p.Len, p)

/-- State-threading form of ToOrderedSchemaItems: the Go body (properties.go
lines 97-118) writes only the fresh local slice (make/append/sort.Sort) and
reads omap.Keys and Origin, so the threaded receiver is returned as it
was. -/
def SchemaProperties.ToOrderedSchemaItemsSt (p : SchemaProperties) :
    List OrderSchemaItem × SchemaProperties :=
  (p.ToOrderedSchemaItems, p)

/-- State-threading form of MarshalJSON: the Go body (properties.go lines
121-126 and 24-42) writes only a fresh buffer and the fresh item slice, on
both the success and the error path, so the threaded receiver is returned as
it was. -/
def SchemaProperties.MarshalJSONSt (p : SchemaProperties) :
    (Except String String) × SchemaProperties :=
  (p.MarshalJSON, p)

/-- Scenario values for claim C2: x-order 10 as an integer. -/
def c2x : OrderSchemaItem := ⟨"x", ⟨[("x-order", ExtValue.int 10)], Except.ok "\x7b\x7d"⟩⟩

/-- Scenario values for claim C2: x-order "5" as a string. -/
def c2y : OrderSchemaItem := ⟨"y", ⟨[("x-order", ExtValue.str "5")], Except.ok "\x7b\x7d"⟩⟩

/-- Witness values for claim C2: integer x-order 3. -/
def c2w1 : OrderSchemaItem := ⟨"u", ⟨[("x-order", ExtValue.int 3)], Except.ok "\x7b\x7d"⟩⟩

/-- Witness values for claim C2: integer x-order 7. -/
def c2w2 : OrderSchemaItem := ⟨"v", ⟨[("x-order", ExtValue.int 7)], Except.ok "\x7b\x7d"⟩⟩

/-- Scenario value for claim C3: sub-schema of "a", x-order 2. -/
def c3sA : Schema := ⟨[("x-order", ExtValue.int 2)], Except.ok "\x7b\x7d"⟩

/-- Scenario value for claim C3: sub-schema of "b", no x-order. -/
def c3sB : Schema := ⟨[], Except.ok "\x7b\x7d"⟩

/-- Scenario value for claim C3: sub-schema of "c", x-order 1. -/
def c3sC : Schema := ⟨[("x-order", ExtValue.int 1)], Except.ok "\x7b\x7d"⟩

/-- Origin entry for claim C8: name "a", x-order 1. -/
def c8a : String × Schema := ("a", ⟨[("x-order", ExtValue.int 1)], Except.ok "\x7b\x7d"⟩)

/-- Origin entry for claim C8: name "b", x-order 1; Less-equivalent to the
"a" entry (neither compares below the other). -/
def c8b : String × Schema := ("b", ⟨[("x-order", ExtValue.int 1)], Except.ok "\x7b\x7d"⟩)

/-- The text a sub-schema serializes to when its encoding succeeds. -/
def encText (s : Schema) : String :=
  match s.encoded with
  | Except.ok t => t
  | Except.error _ => ""

/-- A character that standard JSON string encoding would emit unchanged
inside quotes: not a quote, not a backslash, not a control character.  The
code writes member names raw, so only names made of such characters survive
a decode unchanged. -/
def jsonSafeChar (c : Char) : Bool :=
  decide (c ≠ '"' ∧ c ≠ '\\' ∧ 32 ≤ c.toNat)

/-- A member name whose raw emission coincides with its standard JSON string
encoding. -/
def jsonSafeName (s : String) : Bool := s.data.all jsonSafeChar

/-- Modelled from the spec: one character step of a standard JSON value
scanner (part of the standard JSON decoder, outside src/).  The state is
(bracket depth, inside-string, just-after-escape); none means the scanner
stops or rejects at this character: a close bracket or top-level comma at
depth 0, or a raw control character inside a string. -/
def vstep : Nat × Bool × Bool → Char → Option (Nat × Bool × Bool)
  | (d, true, true), _ => some (d, true, false)
  | (d, true, false), c =>
    if c = '\\' then some (d, true, true)
    else if c = '"' then some (d, false, false)
    else if c.toNat < 32 then none
    else some (d, true, false)
  | (d, false, _), c =>
    if c = '"' then some (d, true, false)
    else if c = '\x7b' ∨ c = '[' then some (d + 1, false, false)
    else if c = '\x7d' ∨ c = ']' then
      match d with
      | 0 => none
      | d2 + 1 => some (d2, false, false)
    else if d = 0 ∧ c = ',' then none
    else some (d, false, false)

/-- Run the value-scanner steps over a character list. -/
def vrun : Nat × Bool × Bool → List Char → Option (Nat × Bool × Bool)
  | st, [] => some st
  | st, c :: rest =>
    match vstep st c with
    | none => none
    | some st2 => vrun st2 rest

/-- A self-delimiting JSON value text: the scanner runs through all of it
without stopping and ends outside strings at depth 0, as the output of a
standard JSON encoder does. -/
def goodValue (l : List Char) : Prop :=
  vrun (0, false, false) l = some (0, false, false)

instance (l : List Char) : Decidable (goodValue l) :=
  inferInstanceAs (Decidable (vrun (0, false, false) l = some (0, false, false)))

/-- Modelled from the spec: the decoder's scan of one member value inside an
object: characters are consumed until, at depth 0 outside a string, the
delimiter of the member (a comma or the closing brace) is reached; that
delimiter is left in the remainder. -/
def scanVal : Nat × Bool × Bool → List Char → Option (List Char × List Char)
  | _, [] => none
  | st, c :: rest =>
    if st.1 = 0 ∧ st.2.1 = false ∧ (c = ',' ∨ c = '\x7d') then some ([], c :: rest)
    else
      match vstep st c with
      | none => none
      | some st2 => (scanVal st2 rest).map (fun pr => (c :: pr.1, pr.2))

/-- Modelled from the spec: the decoder's scan of a string literal body
after the opening quote, up to the closing quote.  The content is returned
as written (escape pairs kept verbatim), which agrees with standard decoding
on strings containing no escapes; raw control characters are rejected. -/
def scanStr : List Char → Option (List Char × List Char)
  | [] => none
  | c :: rest =>
    if c = '"' then some ([], rest)
    else if c = '\\' then
      match rest with
      | [] => none
      | d :: r2 => (scanStr r2).map (fun pr => (c :: d :: pr.1, pr.2))
    else if c.toNat < 32 then none
    else (scanStr rest).map (fun pr => (c :: pr.1, pr.2))

/-- Modelled from the spec: the decoder's member loop: a quoted name, a
colon, a value, then either a comma and further members or the closing
brace ending the input.  The fuel only bounds the member count and is
instantiated with the input length, which lemma parse renders always
sufficient. -/
def parseMembers : Nat → List Char → Option (List (String × String))
  | 0, _ => none
  | fuel + 1, l =>
    match l with
    | [] => none
    | c :: r1 =>
      if c = '"' then
        match scanStr r1 with
        | none => none
        | some (name, r2) =>
          match r2 with
          | ':' :: r3 =>
            match scanVal (0, false, false) r3 with
            | none => none
            | some (v, r4) =>
              match r4 with
              | ',' :: r5 =>
                (parseMembers fuel r5).map (fun ms => (String.mk name, String.mk v) :: ms)
              | ['\x7d'] => some [(String.mk name, String.mk v)]
              | _ => none
          | _ => none
      else none

/-- Modelled from the spec: standard JSON decoding of the produced object
text back into the ordered list of (member name, member value text) pairs;
none when the text is not a JSON object. -/
def parseObj (s : String) : Option (List (String × String)) :=
  match s.data with
  | [] => none
  | c :: rest =>
    if c = '\x7b' then
      match rest with
      | [] => none
      | c2 :: rest2 =>
        if c2 = '\x7d' then if rest2.isEmpty then some [] else none
        else parseMembers rest.length rest
    else none

/-- Scenario container for claim C6: the single member name is one double
quote character, which the code emits raw. -/
def c6bad : SchemaProperties :=
  ⟨some [("\"", ⟨[], Except.ok "\x7b\x7d"⟩)], some ["\""]⟩

/-- Witness entry for claim C6: a safe name with a well-formed encoding. -/
def c6w : String × Schema := ("a", ⟨[], Except.ok "\x7b\x7d"⟩)

/-- Witness decoder for claim C6: inverts the encoding of the witness
entry. -/
def c6dec (t : String) : Option Schema :=
  if t = "\x7b\x7d" then some ⟨[], Except.ok "\x7b\x7d"⟩ else none

end SpecProps

namespace SpecProps

theorem lookup_upsert (m : List (String × Schema)) (k : String) (v : Schema)
    (n : String) :
    (upsert m k v).lookup n = if n = k then some v else m.lookup n := by
  induction m with
  | nil =>
    by_cases h : n = k
    · simp [upsert, List.lookup, h]
    · have hb : (n == k) = false := beq_eq_false_iff_ne.mpr h
      simp [upsert, List.lookup, hb, h]
  | cons kv rest ih =>
    obtain ⟨k0, v0⟩ := kv
    by_cases h0 : k0 = k
    · subst h0
      by_cases h : n = k0
      · simp [upsert, List.lookup, h]
      · have hb : (n == k0) = false := beq_eq_false_iff_ne.mpr h
        simp [upsert, List.lookup, hb, h]
    · by_cases h : n = k0
      · subst h
        simp [upsert, h0, List.lookup, Ne.symm h0]
      · have hb : (n == k0) = false := beq_eq_false_iff_ne.mpr h
        simp [upsert, h0, List.lookup, hb, ih]

theorem build_foldl (l : List (String × Schema)) (m : List (String × Schema))
    (ks : List String) :
    List.foldl (fun p kv => ((SchemaProperties.Set p kv.1 kv.2).getD p))
        ⟨some m, some ks⟩ l
      = ⟨some (List.foldl (fun m2 kv => upsert m2 kv.1 kv.2) m l),
         some (List.foldl (fun ks2 kv => omapSet ks2 kv.1) ks l)⟩ := by
  induction l generalizing m ks with
  | nil => rfl
  | cons kv rest ih =>
    simp only [List.foldl_cons, SchemaProperties.Set, Option.getD_some]
    exact ih _ _

theorem build_eq (l : List (String × Schema)) :
    build l = ⟨some (upserts l), some (insOrder l)⟩ :=
  build_foldl l [] []

theorem toOrdered_omap (p : SchemaProperties) (ks : List String)
    (h : p.omap = some ks) :
    p.ToOrderedSchemaItems = ks.map (fun k => ⟨k, mapGet p.Origin k⟩) := by
  obtain ⟨o, om⟩ := p
  cases h
  rfl

/-- C1: with the insertion-order structure present (omap non-nil),
ToOrderedSchemaItems returns the (name, schema) pairs exactly in the key
order of that structure, with each name paired with its origin-map entry and
no sorting applied; and for a container populated through the constructor
and Set, that key order is the first-insertion order of the names,
independent of any x-order extension values. -/
theorem C1_insertion_order_verbatim :
    (∀ (p : SchemaProperties) (ks : List String), p.omap = some ks →
      p.ToOrderedSchemaItems = ks.map (fun k => ⟨k, mapGet p.Origin k⟩)) ∧
    (∀ l : List (String × Schema),
      (build l).omap = some (insOrder l) ∧
      (build l).ToOrderedSchemaItems.map OrderSchemaItem.Name = insOrder l) := by
  constructor
  · exact fun p ks h => toOrdered_omap p ks h
  · intro l
    rw [build_eq]
    refine ⟨rfl, ?_⟩
    rw [toOrdered_omap _ (insOrder l) rfl, List.map_map]
    have hc : (OrderSchemaItem.Name ∘ fun k =>
        (⟨k, mapGet (some (upserts l)) k⟩ : OrderSchemaItem)) = id := rfl
    rw [hc, List.map_id]

/-- Witness for C1 at a concrete container: inserting b then a (a with a
smaller x-order) still serializes in insertion order b, a. -/
theorem C1_witness :
    (build [("b", c3sB), ("a", c3sA)]).ToOrderedSchemaItems.map OrderSchemaItem.Name
      = insOrder [("b", c3sB), ("a", c3sA)] :=
  (C1_insertion_order_verbatim.2 [("b", c3sB), ("a", c3sA)]).2

/-- C2 counterexample: in the scenario x with x-order 10 (integer) and y with
x-order "5" (string), the comparison does not resolve as the string
comparison of "10" vs "5": that comparison is true (so x would sort before
y), while the code's comparison of x against y is false and of y against x
is true (y sorts before x), because the recover path compares the reflect
string forms "<int Value>" and "5". -/
theorem C2_counterexample :
    goStrLt "10" "5" = true ∧ lessItem c2x c2y = false ∧ lessItem c2y c2x = true := by
  decide

/-- C2 as amended: with both ordering values present the comparison first
attempts integer comparison (ascending), which applies exactly when both
values are integer-kinded; otherwise it falls back to comparing the reflect
string forms (the value itself for a string value, a type placeholder such
as "<int Value>" for a non-string value), which never fails, so the final
name tier is not reached from this path.  A single sort may mix
integer-valued and string-valued x-order entries: in the scenario x with
x-order 10 and y with x-order "5", the comparison resolves via string
comparison of "<int Value>" vs "5", placing y before x from either iteration
order, and the sort does not error. -/
theorem C2_amended_three_tier :
    (∀ a b : OrderSchemaItem, ∀ na nb : Int,
      getExt a.Schema.Extensions "x-order" = some (ExtValue.int na) →
      getExt b.Schema.Extensions "x-order" = some (ExtValue.int nb) →
      lessItem a b = decide (na < nb)) ∧
    (∀ a b : OrderSchemaItem, ∀ va vb : ExtValue,
      getExt a.Schema.Extensions "x-order" = some va →
      getExt b.Schema.Extensions "x-order" = some vb →
      (va.reflectInt = none ∨ vb.reflectInt = none) →
      lessItem a b = goStrLt va.reflectStr vb.reflectStr) ∧
    (SchemaProperties.ToOrderedSchemaItems ⟨some [("x", c2x.Schema), ("y", c2y.Schema)], none⟩
        = [c2y, c2x] ∧
     SchemaProperties.ToOrderedSchemaItems ⟨some [("y", c2y.Schema), ("x", c2x.Schema)], none⟩
        = [c2y, c2x] ∧
     SchemaProperties.MarshalJSON ⟨some [("x", c2x.Schema), ("y", c2y.Schema)], none⟩
        = Except.ok "\x7b\"y\":\x7b\x7d,\"x\":\x7b\x7d\x7d") := by
  refine ⟨?_, ?_, by decide, by decide, by decide⟩
  · intro a b na nb ha hb
    simp [lessItem, ha, hb, ExtValue.reflectInt]
  · intro a b va vb ha hb hni
    cases va <;> cases vb <;>
      simp_all [lessItem, ExtValue.reflectInt]

/-- Witness for C2 at concrete inputs: two integer x-order values 3 and 7
compare by integer order. -/
theorem C2_witness :
    lessItem c2w1 c2w2 = decide ((3 : Int) < 7) :=
  C2_amended_three_tier.1 c2w1 c2w2 3 7 rfl rfl

/-- C3: in the fallback comparison an entry bearing an ordering value sorts
strictly before one lacking it (and conversely an entry lacking one never
sorts before an entry bearing one by that comparison), two entries both
lacking one compare by name (ascending); and for the three entries b (no
x-order), a (x-order 2), c (x-order 1) with no insertion-order structure,
the resulting sequence is c, a, b from every iteration order of the origin
map. -/
theorem C3_fallback_order :
    (∀ a b : OrderSchemaItem, ∀ v : ExtValue,
      getExt a.Schema.Extensions "x-order" = some v →
      getExt b.Schema.Extensions "x-order" = none →
      lessItem a b = true) ∧
    (∀ a b : OrderSchemaItem, ∀ v : ExtValue,
      getExt a.Schema.Extensions "x-order" = none →
      getExt b.Schema.Extensions "x-order" = some v →
      lessItem a b = false) ∧
    (∀ a b : OrderSchemaItem,
      getExt a.Schema.Extensions "x-order" = none →
      getExt b.Schema.Extensions "x-order" = none →
      lessItem a b = goStrLt a.Name b.Name) ∧
    (∀ l : List (String × Schema), l.Perm [("b", c3sB), ("a", c3sA), ("c", c3sC)] →
      SchemaProperties.ToOrderedSchemaItems ⟨some l, none⟩
        = [⟨"c", c3sC⟩, ⟨"a", c3sA⟩, ⟨"b", c3sB⟩]) := by
  refine ⟨?_, ?_, ?_, ?_⟩
  · intro a b v ha hb; simp [lessItem, ha, hb]
  · intro a b v ha hb; simp [lessItem, ha, hb]
  · intro a b ha hb; simp [lessItem, ha, hb]
  · intro l h
    have h3 : l.length = 3 := by rw [h.length_eq]; rfl
    rcases List.length_eq_three.mp h3 with ⟨u, v, w, rfl⟩
    have hu : u ∈ [("b", c3sB), ("a", c3sA), ("c", c3sC)] := h.subset (by simp)
    have hv : v ∈ [("b", c3sB), ("a", c3sA), ("c", c3sC)] := h.subset (by simp)
    have hw : w ∈ [("b", c3sB), ("a", c3sA), ("c", c3sC)] := h.subset (by simp)
    simp only [List.mem_cons, List.not_mem_nil, or_false] at hu hv hw
    have hnd : ([u, v, w] : List (String × Schema)).Nodup := h.nodup_iff.mpr (by decide)
    rcases hu with rfl | rfl | rfl <;> rcases hv with rfl | rfl | rfl <;>
      rcases hw with rfl | rfl | rfl <;> simp_all <;> decide

/-- Witness for C3 at a concrete iteration order of the three entries. -/
theorem C3_witness :
    SchemaProperties.ToOrderedSchemaItems
        ⟨some [("a", c3sA), ("c", c3sC), ("b", c3sB)], none⟩
      = [⟨"c", c3sC⟩, ⟨"a", c3sA⟩, ⟨"b", c3sB⟩] :=
  C3_fallback_order.2.2.2 [("a", c3sA), ("c", c3sC), ("b", c3sB)] (by decide)

theorem braces_ne_null (body : String) : ("\x7b" ++ body ++ "\x7d") ≠ "null" := by
  intro h
  have hd := congrArg String.data h
  rw [String.data_append, String.data_append] at hd
  have h1 : "\x7b".data = ['\x7b'] := rfl
  have h2 : "null".data = ['n', 'u', 'l', 'l'] := rfl
  rw [h1, h2] at hd
  simp at hd

/-- C4: MarshalJSON returns the literal null exactly when the Origin map is
nil: a nil-Origin container yields null whatever the insertion-order
structure holds, an initialized container satisfying the container invariant
with zero entries yields the object text of an empty object, and an
initialized container never yields null. -/
theorem C4_null_vs_empty :
    (∀ om, (SchemaProperties.mk none om).MarshalJSON = Except.ok "null") ∧
    (∀ (p : SchemaProperties) (m : List (String × Schema)),
      Inv p → p.Origin = some m → p.Len = 0 →
      p.MarshalJSON = Except.ok "\x7b\x7d") ∧
    (∀ (p : SchemaProperties) (m : List (String × Schema)),
      p.Origin = some m → p.MarshalJSON ≠ Except.ok "null") := by
  refine ⟨fun om => rfl, ?_, ?_⟩
  · intro p m hinv hm hlen
    obtain ⟨o, om⟩ := p
    cases hm
    have hm0 : m = [] := by
      have : m.length = 0 := hlen
      exact List.length_eq_zero.mp this
    subst hm0
    cases om with
    | none => rfl
    | some ks =>
      have hks : ks = [] := by
        have hperm : ks.Perm (mapKeys ([] : List (String × Schema))) := hinv.1
        exact hperm.eq_nil
      subst hks
      rfl
  · intro p m hm hcon
    obtain ⟨o, om⟩ := p
    cases hm
    revert hcon
    simp only [SchemaProperties.MarshalJSON, OrderSchemaItems.MarshalJSON]
    cases hrm : renderMembers (SchemaProperties.ToOrderedSchemaItems ⟨some m, om⟩) with
    | error e => intro hcon; cases hcon
    | ok body =>
      intro hcon
      injection hcon with h2
      exact braces_ne_null body h2

/-- Witness for C4: the freshly constructed container is initialized, empty
and serializes as the empty object text. -/
theorem C4_witness :
    NewSchemaProperties.MarshalJSON = Except.ok "\x7b\x7d" :=
  C4_null_vs_empty.2.1 NewSchemaProperties [] (by constructor <;> decide) rfl rfl

theorem mapGet_upsert (m : List (String × Schema)) (k : String) (v : Schema)
    (n : String) :
    mapGet (some (upsert m k v)) n = if n = k then v else mapGet (some m) n := by
  by_cases h : n = k <;> simp [mapGet, lookup_upsert, h]

/-- C5: on a container with both structures present (as built by the
constructor), re-inserting an existing name k with a new schema v leaves the
name sequence of toOrderedSequence unchanged and replaces only the schema
paired with k, so k appears at its original position with the most recently
inserted schema. -/
theorem C5_reinsert_keeps_position :
    ∀ (m : List (String × Schema)) (ks : List String) (k : String) (v : Schema)
      (p2 : SchemaProperties),
      k ∈ ks →
      SchemaProperties.Set ⟨some m, some ks⟩ k v = some p2 →
      (SchemaProperties.mk (some m) (some ks)).ToOrderedSchemaItems
          = ks.map (fun n => ⟨n, mapGet (some m) n⟩) ∧
      p2.ToOrderedSchemaItems
          = ks.map (fun n => ⟨n, if n = k then v else mapGet (some m) n⟩) := by
  intro m ks k v p2 hk hset
  have hp2 : p2 = ⟨some (upsert m k v), some (omapSet ks k)⟩ := by
    simpa [SchemaProperties.Set] using hset.symm
  subst hp2
  refine ⟨toOrdered_omap _ _ rfl, ?_⟩
  rw [toOrdered_omap _ _ rfl]
  have homap : omapSet ks k = ks := if_pos hk
  rw [homap]
  simp only [mapGet_upsert]

/-- Witness for C5: re-inserting "a" into a two-entry container keeps it in
first position, now paired with the new schema. -/
theorem C5_witness :
    (SchemaProperties.mk
        (some (upsert [("a", c3sA), ("b", c3sB)] "a" c3sC))
        (some (omapSet ["a", "b"] "a"))).ToOrderedSchemaItems
      = ["a", "b"].map (fun n =>
          ⟨n, if n = "a" then c3sC else mapGet (some [("a", c3sA), ("b", c3sB)]) n⟩) :=
  (C5_reinsert_keeps_position [("a", c3sA), ("b", c3sB)] ["a", "b"] "a" c3sC
    _ (by decide) rfl).2

theorem renderMembers_error (items : List OrderSchemaItem) :
    ∀ it ∈ items, ∀ e, it.Schema.encoded = Except.error e →
    ∃ e2, renderMembers items = Except.error e2 := by
  induction items with
  | nil => intro it h; cases h
  | cons hd tl ih =>
    intro it hmem e he
    rcases List.mem_cons.mp hmem with rfl | hmem2
    · exact ⟨e, by simp [renderMembers, renderItem, he]⟩
    · cases hri : renderItem hd with
      | error e2 => exact ⟨e2, by simp [renderMembers, hri]⟩
      | ok s =>
        obtain ⟨e2, hrm⟩ := ih it hmem2 e he
        exact ⟨e2, by simp [renderMembers, hri, hrm]⟩

/-- C7: if the standard JSON encoding of any sub-schema in the produced
sequence fails, the whole serialization fails: MarshalJSON surfaces an
encoding error and returns no (partial) object text. -/
theorem C7_encoding_error_aborts :
    ∀ (p : SchemaProperties) (m : List (String × Schema)), p.Origin = some m →
    ∀ it ∈ p.ToOrderedSchemaItems, ∀ e, it.Schema.encoded = Except.error e →
    (∃ e2, p.MarshalJSON = Except.error e2) ∧ ∀ s, p.MarshalJSON ≠ Except.ok s := by
  intro p m hm it hmem e he
  obtain ⟨e2, hrm⟩ := renderMembers_error _ it hmem e he
  have hmar : p.MarshalJSON = Except.error e2 := by
    obtain ⟨o, om⟩ := p
    cases hm
    simp [SchemaProperties.MarshalJSON, OrderSchemaItems.MarshalJSON, hrm]
  exact ⟨⟨e2, hmar⟩, fun s hs => by rw [hmar] at hs; cases hs⟩

/-- Witness for C7: a single-entry container whose sub-schema encoding fails
serializes to that error. -/
theorem C7_witness :
    (∃ e2, (SchemaProperties.mk (some [("a", ⟨[], Except.error "boom"⟩)]) (some ["a"])).MarshalJSON
      = Except.error e2) ∧
    ∀ s, (SchemaProperties.mk (some [("a", ⟨[], Except.error "boom"⟩)]) (some ["a"])).MarshalJSON
      ≠ Except.ok s :=
  C7_encoding_error_aborts _ [("a", ⟨[], Except.error "boom"⟩)] rfl
    ⟨"a", ⟨[], Except.error "boom"⟩⟩ (by decide) "boom" rfl

/-- C9 counterexample: on a container whose Origin map is nil, Set does not
succeed: the Go assignment s.Origin[k] = v panics at runtime (modelled as
none). -/
theorem C9_counterexample :
    SchemaProperties.Set ⟨none, some []⟩ "a" default = none := rfl

/-- C9 as amended: Set always succeeds, with no error conditions, for every
container whose Origin map and insertion-order structure are initialized —
in particular for every container built by the constructor — for every name
string including the empty string and every schema value; on a container
whose Origin map or insertion-order structure is nil the operation instead
panics at runtime. -/
theorem C9_set_always_succeeds :
    ∀ (m : List (String × Schema)) (ks : List String) (k : String) (v : Schema),
      (SchemaProperties.Set ⟨some m, some ks⟩ k v).isSome = true ∧
      ∀ l : List (String × Schema), ((build l).Set k v).isSome = true := by
  intro m ks k v
  refine ⟨rfl, fun l => ?_⟩
  rw [build_eq]
  rfl

/-- C10: the read operations do not modify the container: threading the
receiver through Len, ToOrderedSchemaItems and MarshalJSON (whose Go bodies
write only to fresh locals) leaves Origin and omap with the same keys,
values and order, whether serialization succeeds or fails, and returns the
same results as the plain operations. -/
theorem C10_reads_leave_state :
    ∀ p : SchemaProperties,
      p.LenSt.2.Origin = p.Origin ∧ p.LenSt.2.omap = p.omap ∧
      p.ToOrderedSchemaItemsSt.2.Origin = p.Origin ∧
      p.ToOrderedSchemaItemsSt.2.omap = p.omap ∧
      p.MarshalJSONSt.2.Origin = p.Origin ∧ p.MarshalJSONSt.2.omap = p.omap ∧
      p.LenSt.1 = p.Len ∧
      p.ToOrderedSchemaItemsSt.1 = p.ToOrderedSchemaItems ∧
      p.MarshalJSONSt.1 = p.MarshalJSON :=
  fun _ => ⟨rfl, rfl, rfl, rfl, rfl, rfl, rfl, rfl, rfl⟩

theorem lookup_perm {α : Type} (m1 m2 : List (String × α)) (h : m1.Perm m2)
    (hn : (mapKeys m1).Nodup) (k : String) :
    m1.lookup k = m2.lookup k := by
  induction h with
  | nil => rfl
  | cons x h2 ih =>
    have hn2 : (mapKeys _).Nodup := (List.nodup_cons.mp hn).2
    by_cases hk : k = x.1
    · have hb : (k == x.1) = true := beq_iff_eq.mpr hk
      simp [List.lookup, hb]
    · have hb : (k == x.1) = false := beq_eq_false_iff_ne.mpr hk
      simp [List.lookup, hb, ih hn2]
  | swap x y l =>
    have hxy : y.1 ≠ x.1 := by
      have := (List.nodup_cons.mp hn).1
      intro he
      exact this (by rw [he]; exact List.mem_cons_self _ _)
    by_cases hky : k = y.1
    · have hb1 : (k == y.1) = true := beq_iff_eq.mpr hky
      have hb2 : (k == x.1) = false := beq_eq_false_iff_ne.mpr (by rw [hky]; exact hxy)
      simp [List.lookup, hb1, hb2]
    · by_cases hkx : k = x.1
      · have hb1 : (k == y.1) = false := beq_eq_false_iff_ne.mpr hky
        have hb2 : (k == x.1) = true := beq_iff_eq.mpr hkx
        simp [List.lookup, hb1, hb2]
      · have hb1 : (k == y.1) = false := beq_eq_false_iff_ne.mpr hky
        have hb2 : (k == x.1) = false := beq_eq_false_iff_ne.mpr hkx
        simp [List.lookup, hb1, hb2]
  | trans h1 h2 ih1 ih2 =>
    have hn2 : (mapKeys _).Nodup := ((h1.map Prod.fst).nodup_iff).mp hn
    exact (ih1 hn).trans (ih2 hn2)

/-- C8 counterexample: two containers on the fallback path holding the same
origin map state (key-value sets equal up to iteration order, keys distinct,
no insertion-order structure) serialize to different byte sequences, because
the two entries share x-order 1 and neither compares below the other, so the
stable sort keeps either iteration order.  Serialization is therefore not a
function of the container state alone on the fallback path. -/
theorem C8_counterexample :
    ([c8a, c8b] : List (String × Schema)).Perm [c8b, c8a] ∧
    (mapKeys [c8a, c8b]).Nodup ∧
    (SchemaProperties.mk (some [c8a, c8b]) none).omap
      = (SchemaProperties.mk (some [c8b, c8a]) none).omap ∧
    SchemaProperties.MarshalJSON ⟨some [c8a, c8b], none⟩
      ≠ SchemaProperties.MarshalJSON ⟨some [c8b, c8a], none⟩ := by
  refine ⟨by decide, by decide, rfl, by decide⟩

/-- C8 as amended: serialization is a pure, deterministic, idempotent
function of the container state together with the origin map's iteration
order; on the uninitialized path and on the insertion-order path (the
insertion-order structure present) two invocations on equal container states
produce identical results, bytes or error, whatever the iteration order; on
the fallback path the result may in addition depend on the iteration order
when distinct entries compare as Less-equivalent. -/
theorem C8_deterministic_insertion_path :
    ∀ p q : SchemaProperties, stateEquiv p q →
      (p.omap ≠ none ∨ p.Origin = none) →
      p.MarshalJSON = q.MarshalJSON := by
  intro p q hequiv hpath
  obtain ⟨o1, om1⟩ := p
  obtain ⟨o2, om2⟩ := q
  obtain ⟨homap, horig⟩ := hequiv
  cases homap
  cases o1 with
  | none =>
    cases o2 with
    | none => rfl
    | some m2 => exact absurd horig (by simp [stateEquiv])
  | some m1 =>
    cases o2 with
    | none => exact absurd horig (by simp [stateEquiv])
    | some m2 =>
      obtain ⟨hperm, hnodup⟩ := horig
      cases om1 with
      | none =>
        rcases hpath with hne | hnil
        · exact absurd rfl hne
        · cases hnil
      | some ks =>
        have hlook : ∀ k, mapGet (some m1) k = mapGet (some m2) k := by
          intro k
          simp [mapGet, lookup_perm m1 m2 hperm hnodup k]
        have h1 := toOrdered_omap ⟨some m1, some ks⟩ ks rfl
        have h2 := toOrdered_omap ⟨some m2, some ks⟩ ks rfl
        simp only [SchemaProperties.MarshalJSON, h1, h2]
        simp only [hlook]

/-- Witness for C8: two containers on the insertion-order path whose origin
lists are the two iteration orders of the same two-entry map serialize
identically. -/
theorem C8_witness :
    SchemaProperties.MarshalJSON ⟨some [c8a, c8b], some ["a", "b"]⟩
      = SchemaProperties.MarshalJSON ⟨some [c8b, c8a], some ["a", "b"]⟩ :=
  C8_deterministic_insertion_path ⟨some [c8a, c8b], some ["a", "b"]⟩
    ⟨some [c8b, c8a], some ["a", "b"]⟩
    ⟨rfl, by decide, by decide⟩ (Or.inl (by simp))

theorem string_eta (s : String) : String.mk s.data = s := rfl

theorem vstep_stop (e : Bool) (c : Char) (hc : c = ',' ∨ c = '\x7d') :
    vstep (0, false, e) c = none := by
  rcases hc with rfl | rfl <;> cases e <;> rfl

theorem scanVal_append (l : List Char) :
    ∀ st st2, vrun st l = some st2 →
    ∀ m, scanVal st (l ++ m) = (scanVal st2 m).map (fun pr => (l ++ pr.1, pr.2)) := by
  induction l with
  | nil =>
    intro st st2 h m
    have hst : st2 = st := by simpa [vrun] using h.symm
    subst hst
    simp only [List.nil_append]
    cases hs : scanVal st2 m with
    | none => simp
    | some pr => simp
  | cons c rest ih =>
    intro st st2 h m
    cases hv : vstep st c with
    | none => simp [vrun, hv] at h
    | some st1 =>
      have h2 : vrun st1 rest = some st2 := by simpa [vrun, hv] using h
      have hstop : ¬ (st.1 = 0 ∧ st.2.1 = false ∧ (c = ',' ∨ c = '\x7d')) := by
        rintro ⟨h0, h1, hc⟩
        obtain ⟨d, i, e⟩ := st
        simp only at h0 h1
        subst h0
        subst h1
        rw [vstep_stop e c hc] at hv
        cases hv
      rw [List.cons_append]
      have hone : scanVal st (c :: (rest ++ m))
          = (scanVal st1 (rest ++ m)).map (fun pr => (c :: pr.1, pr.2)) := by
        simp [scanVal, hstop, hv]
      rw [hone, ih st1 st2 h2 m]
      cases scanVal st2 m with
      | none => rfl
      | some pr => simp

theorem scanVal_stop (c : Char) (hc : c = ',' ∨ c = '\x7d') (m : List Char) :
    scanVal (0, false, false) (c :: m) = some ([], c :: m) := by
  rcases hc with rfl | rfl <;> simp [scanVal]

theorem scanVal_good (l : List Char) (hg : goodValue l) (c : Char)
    (hc : c = ',' ∨ c = '\x7d') (m : List Char) :
    scanVal (0, false, false) (l ++ c :: m) = some (l, c :: m) := by
  rw [scanVal_append l _ _ hg (c :: m), scanVal_stop c hc m]
  simp

theorem scanStr_safe (name : List Char) (h : ∀ c ∈ name, jsonSafeChar c = true)
    (m : List Char) :
    scanStr (name ++ '"' :: m) = some (name, m) := by
  induction name with
  | nil =>
    rw [List.nil_append]
    unfold scanStr
    simp
  | cons c cs ih =>
    have hc : c ≠ '"' ∧ c ≠ '\\' ∧ 32 ≤ c.toNat := by
      simpa [jsonSafeChar] using h c (List.mem_cons_self c cs)
    obtain ⟨h1, h2, h3⟩ := hc
    have h4 : ¬ c.toNat < 32 := by omega
    rw [List.cons_append]
    unfold scanStr
    simp [h1, h2, h4, ih (fun x hx => h x (List.mem_cons_of_mem c hx))]

theorem lookup_map_snd {β : Type} (m : List (String × Schema)) (g : Schema → β)
    (k : String) :
    (m.map (fun kv => (kv.1, g kv.2))).lookup k = (m.lookup k).map g := by
  induction m with
  | nil => rfl
  | cons kv t ih =>
    by_cases hk : k = kv.1
    · have hb : (k == kv.1) = true := beq_iff_eq.mpr hk
      simp [List.lookup, hb]
    · have hb : (k == kv.1) = false := beq_eq_false_iff_ne.mpr hk
      simp [List.lookup, hb, ih]

theorem mem_of_lookup {α : Type} (m : List (String × α)) (k : String) (v : α)
    (h : m.lookup k = some v) : (k, v) ∈ m := by
  induction m with
  | nil => cases h
  | cons kv t ih =>
    obtain ⟨k1, v1⟩ := kv
    by_cases hk : k = k1
    · have hb : (k == k1) = true := beq_iff_eq.mpr hk
      have hv : v1 = v := by simpa [List.lookup, hb] using h
      subst hk
      subst hv
      exact List.mem_cons_self _ _
    · have hb : (k == k1) = false := beq_eq_false_iff_ne.mpr hk
      have h2 : t.lookup k = some v := by simpa [List.lookup, hb] using h
      exact List.mem_cons_of_mem _ (ih h2)

theorem map_congr_mem {α β : Type} (l : List α) (f g : α → β)
    (h : ∀ a ∈ l, f a = g a) : l.map f = l.map g := by
  induction l with
  | nil => rfl
  | cons a t ih =>
    simp only [List.map_cons, h a (List.mem_cons_self a t),
      ih (fun x hx => h x (List.mem_cons_of_mem a hx))]

theorem map_toItem_by_keys (m : List (String × Schema))
    (hn : (mapKeys m).Nodup) :
    m.map (fun kv => (⟨kv.1, kv.2⟩ : OrderSchemaItem))
      = (mapKeys m).map (fun k => ⟨k, mapGet (some m) k⟩) := by
  induction m with
  | nil => rfl
  | cons kv t ih =>
    obtain ⟨k1, v1⟩ := kv
    have hn1 : k1 ∉ mapKeys t := (List.nodup_cons.mp hn).1
    have hn2 : (mapKeys t).Nodup := (List.nodup_cons.mp hn).2
    have hhead : mapGet (some ((k1, v1) :: t)) k1 = v1 := by
      simp [mapGet, List.lookup]
    have htail : ∀ k2 ∈ mapKeys t,
        (⟨k2, mapGet (some t) k2⟩ : OrderSchemaItem)
          = ⟨k2, mapGet (some ((k1, v1) :: t)) k2⟩ := by
      intro k2 hk2
      have hne : k2 ≠ k1 := fun he => hn1 (he ▸ hk2)
      have hb : (k2 == k1) = false := beq_eq_false_iff_ne.mpr hne
      simp [mapGet, List.lookup, hb]
    show (⟨k1, v1⟩ : OrderSchemaItem) :: t.map (fun kv => (⟨kv.1, kv.2⟩ : OrderSchemaItem))
        = (⟨k1, mapGet (some ((k1, v1) :: t)) k1⟩ : OrderSchemaItem)
          :: (mapKeys t).map (fun k => ⟨k, mapGet (some ((k1, v1) :: t)) k⟩)
    rw [hhead, ih hn2, map_congr_mem (mapKeys t) _ _ htail]

theorem insertItem_perm (x : OrderSchemaItem) (l : List OrderSchemaItem) :
    (insertItem x l).Perm (x :: l) := by
  induction l with
  | nil => exact List.Perm.refl _
  | cons y ys ih =>
    by_cases h : lessItem y x
    · have he : insertItem x (y :: ys) = y :: insertItem x ys := by
        simp [insertItem, h]
      rw [he]
      exact (ih.cons y).trans (List.Perm.swap x y ys)
    · have he : insertItem x (y :: ys) = x :: y :: ys := by
        simp [insertItem, h]
      rw [he]

theorem sortItems_perm (l : List OrderSchemaItem) : (sortItems l).Perm l := by
  induction l with
  | nil => exact List.Perm.refl _
  | cons x xs ih =>
    have he : sortItems (x :: xs) = insertItem x (sortItems xs) := rfl
    rw [he]
    exact (insertItem_perm x (sortItems xs)).trans (ih.cons x)

theorem inv_nodup (p : SchemaProperties) (m : List (String × Schema))
    (hm : p.Origin = some m) (hinv : Inv p) : (mapKeys m).Nodup := by
  obtain ⟨o, om⟩ := p
  cases hm
  cases om with
  | none => exact hinv
  | some ks => exact hinv.2

theorem toOrdered_perm (p : SchemaProperties) (m : List (String × Schema))
    (hm : p.Origin = some m) (hinv : Inv p) :
    p.ToOrderedSchemaItems.Perm (m.map (fun kv => ⟨kv.1, kv.2⟩)) := by
  obtain ⟨o, om⟩ := p
  cases hm
  cases om with
  | none => exact sortItems_perm _
  | some ks =>
    obtain ⟨hperm, hnodup⟩ := hinv
    rw [toOrdered_omap ⟨some m, some ks⟩ ks rfl, map_toItem_by_keys m hnodup]
    exact hperm.map _

theorem renderMembers_cons (it : OrderSchemaItem) (rest : List OrderSchemaItem)
    (s t2 : String) (h1 : renderItem it = Except.ok s)
    (h2 : renderMembers rest = Except.ok t2) :
    renderMembers (it :: rest)
      = Except.ok (s ++ (if rest.isEmpty then "" else ",") ++ t2) := by
  simp only [renderMembers, h1, h2]

theorem renderParse (items : List OrderSchemaItem) :
    items ≠ [] →
    (∀ it ∈ items, jsonSafeName it.Name = true) →
    (∀ it ∈ items, ∃ t, it.Schema.encoded = Except.ok t ∧ goodValue t.data) →
    ∃ body : String, renderMembers items = Except.ok body ∧
      body.data.head? = some '"' ∧
      items.length ≤ body.data.length ∧
      (∀ fuel, items.length ≤ fuel →
        parseMembers fuel (body.data ++ ['\x7d'])
          = some (items.map (fun it => (it.Name, encText it.Schema)))) := by
  induction items with
  | nil => intro hne; exact absurd rfl hne
  | cons it rest ih =>
    intro _ hsafe hgood
    obtain ⟨t, henc, hgv⟩ := hgood it (List.mem_cons_self it rest)
    have hname : jsonSafeName it.Name = true := hsafe it (List.mem_cons_self it rest)
    have hchars : ∀ c ∈ it.Name.data, jsonSafeChar c = true := by
      simpa [jsonSafeName, List.all_eq_true] using hname
    have hri : renderItem it = Except.ok ("\"" ++ it.Name ++ "\":" ++ t) := by
      simp [renderItem, henc]
    have hencText : encText it.Schema = t := by simp [encText, henc]
    cases rest with
    | nil =>
      refine ⟨("\"" ++ it.Name ++ "\":" ++ t) ++ "" ++ "", ?_, ?_, ?_, ?_⟩
      · simp [renderMembers, hri]
      · simp [String.data_append]
      · simp [String.data_append]
      · intro fuel hfuel
        cases fuel with
        | zero => simp at hfuel
        | succ f =>
          have harg : ((("\"" ++ it.Name ++ "\":" ++ t) ++ "" ++ "").data) ++ ['\x7d']
              = '"' :: (it.Name.data ++ ('"' :: (':' :: (t.data ++ ['\x7d'])))) := by
            simp [String.data_append]
          rw [harg]
          unfold parseMembers
          simp [scanStr_safe it.Name.data hchars (':' :: (t.data ++ ['\x7d'])),
                scanVal_good t.data hgv '\x7d' (Or.inr rfl) [],
                string_eta, hencText]
    | cons it2 rest2 =>
      have hne2 : it2 :: rest2 ≠ [] := by simp
      obtain ⟨body2, hrm2, hhead2, hlen2, hparse2⟩ :=
        ih hne2 (fun x hx => hsafe x (List.mem_cons_of_mem it hx))
          (fun x hx => hgood x (List.mem_cons_of_mem it hx))
      refine ⟨("\"" ++ it.Name ++ "\":" ++ t) ++ "," ++ body2, ?_, ?_, ?_, ?_⟩
      · rw [renderMembers_cons it (it2 :: rest2) _ body2 hri hrm2]
        simp
      · simp [String.data_append]
      · have := hlen2
        simp [String.data_append] at this ⊢
        omega
      · intro fuel hfuel
        cases fuel with
        | zero => simp at hfuel
        | succ f =>
          have hf2 : (it2 :: rest2).length ≤ f := by
            simp at hfuel ⊢
            omega
          have harg : ((("\"" ++ it.Name ++ "\":" ++ t) ++ "," ++ body2).data) ++ ['\x7d']
              = '"' :: (it.Name.data
                  ++ ('"' :: (':' :: (t.data ++ (',' :: (body2.data ++ ['\x7d'])))))) := by
            simp [String.data_append]
          rw [harg]
          unfold parseMembers
          simp [scanStr_safe it.Name.data hchars
                  (':' :: (t.data ++ (',' :: (body2.data ++ ['\x7d'])))),
                scanVal_good t.data hgv ',' (Or.inl rfl) (body2.data ++ ['\x7d']),
                hparse2 f hf2, string_eta, hencText]

theorem parseObj_members (tl : List Char) (s : String)
    (hs : s.data = '\x7b' :: ('"' :: tl)) :
    parseObj s = parseMembers ('"' :: tl).length ('"' :: tl) := by
  simp [parseObj, hs]

/-- C6 counterexample: the container holding the single member name
consisting of one double quote character — a container the insertion
operation can build, initialized and satisfying the container invariant —
serializes with the name emitted raw, producing text that is not decodable
JSON object text: decoding yields no mapping at all, in particular not one
equal key by key to the origin map. -/
theorem C6_counterexample :
    c6bad = build [("\"", ⟨[], Except.ok "\x7b\x7d"⟩)] ∧
    Inv c6bad ∧
    c6bad.MarshalJSON = Except.ok "\x7b\"\"\":\x7b\x7d\x7d" ∧
    parseObj "\x7b\"\"\":\x7b\x7d\x7d" = none :=
  ⟨by decide, ⟨by decide, by decide⟩, by decide, by decide⟩

/-- C6 as amended: for every initialized container satisfying the container
invariant whose member names contain no quote, backslash or control
characters (so the raw name emission coincides with standard JSON string
encoding) and whose sub-schema encodings succeed with self-delimiting JSON
value texts, serialization succeeds and decoding the produced object text
yields the origin map key by key: each member name's value text is its
sub-schema's encoding, and composing with any decoder that inverts the
sub-schema encoding recovers exactly the origin mapping. -/
theorem C6_roundtrip_safe_names :
    ∀ (p : SchemaProperties) (m : List (String × Schema)),
      p.Origin = some m → Inv p →
      (∀ kv ∈ m, jsonSafeName kv.1 = true) →
      (∀ kv ∈ m, ∃ t, kv.2.encoded = Except.ok t ∧ goodValue t.data) →
      ∃ (out : String) (parsed : List (String × String)),
        p.MarshalJSON = Except.ok out ∧
        parseObj out = some parsed ∧
        (∀ k, parsed.lookup k = (m.lookup k).map encText) ∧
        (∀ dec : String → Option Schema,
          (∀ kv ∈ m, dec (encText kv.2) = some kv.2) →
          ∀ k, (parsed.lookup k).bind dec = m.lookup k) := by
  intro p m hm hinv hsafe hgood
  have hitems : p.ToOrderedSchemaItems.Perm (m.map (fun kv => ⟨kv.1, kv.2⟩)) :=
    toOrdered_perm p m hm hinv
  have hnodup : (mapKeys m).Nodup := inv_nodup p m hm hinv
  have hcanon : (p.ToOrderedSchemaItems.map (fun it => (it.Name, encText it.Schema))).Perm
      (m.map (fun kv => (kv.1, encText kv.2))) := by
    have h2 : ((m.map (fun kv => (⟨kv.1, kv.2⟩ : OrderSchemaItem))).map
        (fun it => (it.Name, encText it.Schema)))
        = m.map (fun kv => (kv.1, encText kv.2)) := by
      simp [List.map_map, Function.comp]
    have h1 := hitems.map (fun it => (it.Name, encText it.Schema))
    rw [h2] at h1
    exact h1
  have hpk : (mapKeys (p.ToOrderedSchemaItems.map
      (fun it => (it.Name, encText it.Schema)))).Nodup := by
    have h2 : (mapKeys (p.ToOrderedSchemaItems.map
        (fun it => (it.Name, encText it.Schema)))).Perm
        (mapKeys (m.map (fun kv => (kv.1, encText kv.2)))) := hcanon.map Prod.fst
    have h3 : mapKeys (m.map (fun kv => (kv.1, encText kv.2))) = mapKeys m := by
      simp [mapKeys, List.map_map]
    exact h2.nodup_iff.mpr (by rw [h3]; exact hnodup)
  have hlook : ∀ k,
      (p.ToOrderedSchemaItems.map (fun it => (it.Name, encText it.Schema))).lookup k
        = (m.lookup k).map encText := by
    intro k
    rw [lookup_perm _ _ hcanon hpk k, lookup_map_snd m encText k]
  have hbind : ∀ dec : String → Option Schema,
      (∀ kv ∈ m, dec (encText kv.2) = some kv.2) →
      ∀ k, ((p.ToOrderedSchemaItems.map
        (fun it => (it.Name, encText it.Schema))).lookup k).bind dec = m.lookup k := by
    intro dec hdec k
    rw [hlook k]
    cases hlk : m.lookup k with
    | none => rfl
    | some v => simp [hdec (k, v) (mem_of_lookup m k v hlk)]
  cases hI : p.ToOrderedSchemaItems with
  | nil =>
    have hmar : p.MarshalJSON = Except.ok ("\x7b" ++ "" ++ "\x7d") := by
      obtain ⟨o, om⟩ := p
      cases hm
      simp only [SchemaProperties.MarshalJSON, OrderSchemaItems.MarshalJSON, hI,
        renderMembers]
    refine ⟨_, [], hmar, by decide, ?_, ?_⟩
    · intro k
      have h7 := hlook k
      rw [hI] at h7
      simpa using h7
    · intro dec hdec k
      have h7 := hbind dec hdec k
      rw [hI] at h7
      simpa using h7
  | cons it0 rest0 =>
    have hmemItems : ∀ it ∈ p.ToOrderedSchemaItems, ∃ kv ∈ m, it = ⟨kv.1, kv.2⟩ := by
      intro it hit
      have h5 : it ∈ m.map (fun kv => (⟨kv.1, kv.2⟩ : OrderSchemaItem)) :=
        hitems.subset hit
      obtain ⟨kv, hkv, heq⟩ := List.mem_map.mp h5
      exact ⟨kv, hkv, heq.symm⟩
    have hsafeI : ∀ it ∈ p.ToOrderedSchemaItems, jsonSafeName it.Name = true := by
      intro it hit
      obtain ⟨kv, hkv, rfl⟩ := hmemItems it hit
      exact hsafe kv hkv
    have hgoodI : ∀ it ∈ p.ToOrderedSchemaItems,
        ∃ t, it.Schema.encoded = Except.ok t ∧ goodValue t.data := by
      intro it hit
      obtain ⟨kv, hkv, rfl⟩ := hmemItems it hit
      exact hgood kv hkv
    obtain ⟨body, hrm, hhead, hlen, hparse⟩ :=
      renderParse _ (by rw [hI]; simp) hsafeI hgoodI
    have hmar : p.MarshalJSON = Except.ok ("\x7b" ++ body ++ "\x7d") := by
      obtain ⟨o, om⟩ := p
      cases hm
      simp only [SchemaProperties.MarshalJSON, OrderSchemaItems.MarshalJSON, hrm]
    obtain ⟨tl, hbd⟩ : ∃ tl, body.data = '"' :: tl := by
      cases hb : body.data with
      | nil => rw [hb] at hhead; cases hhead
      | cons c tl2 =>
        rw [hb] at hhead
        simp at hhead
        subst hhead
        exact ⟨tl2, rfl⟩
    have hout : ("\x7b" ++ body ++ "\x7d").data = '\x7b' :: ('"' :: (tl ++ ['\x7d'])) := by
      simp [String.data_append, hbd]
    have hpo : parseObj ("\x7b" ++ body ++ "\x7d")
        = some (p.ToOrderedSchemaItems.map (fun it => (it.Name, encText it.Schema))) := by
      rw [parseObj_members (tl ++ ['\x7d']) _ hout]
      have hback : ('"' :: (tl ++ ['\x7d'])) = body.data ++ ['\x7d'] := by
        rw [hbd]
        simp
      rw [hback]
      apply hparse
      simp only [List.length_append, List.length_cons, List.length_nil]
      omega
    exact ⟨_, _, hmar, hpo, hlook, hbind⟩

/-- Witness for C6 at a concrete single-entry container with a safe name,
with a concrete decoder inverting the encoding of its sub-schema. -/
theorem C6_witness :
    ∃ (out : String) (parsed : List (String × String)),
      (SchemaProperties.mk (some [c6w]) (some ["a"])).MarshalJSON = Except.ok out ∧
      parseObj out = some parsed ∧
      (∀ k, parsed.lookup k = (([c6w] : List (String × Schema)).lookup k).map encText) ∧
      (∀ dec : String → Option Schema,
        (∀ kv ∈ ([c6w] : List (String × Schema)), dec (encText kv.2) = some kv.2) →
        ∀ k, (parsed.lookup k).bind dec = ([c6w] : List (String × Schema)).lookup k) :=
  C6_roundtrip_safe_names ⟨some [c6w], some ["a"]⟩ [c6w] rfl
    ⟨by decide, by decide⟩
    (by intro kv hkv; simp at hkv; subst hkv; decide)
    (by
      intro kv hkv
      simp at hkv
      subst hkv
      exact ⟨"\x7b\x7d", rfl, by decide⟩)

end SpecProps
